import Mathlib

/-!
Verification of the schedule text extractor in `scrape_weekend_time.py`.

The Python source is shallowly embedded below.  Strings are modelled as
`List Char` (Lean `String` wraps exactly that); machine integers do not
occur.  Character classes of the Python regular expressions (`\d`, `\s`)
and of `str.strip()` are modelled over the character set the program
actually consumes: `\d` is modelled as the ASCII digits `0`-`9` and the
whitespace classes cover the ASCII and common Unicode whitespace
characters.  Everything is executable, so each theorem with hypotheses is
accompanied by a witness evaluated on concrete input.
-/

/-- ASCII digit test (code points 48-57), modelling the regex class `\d`
of the source. -/
def isDigitCh (c : Char) : Bool :=
  48 ≤ c.toNat && c.toNat ≤ 57

/-- Whitespace, modelling both Python `str.strip()` with no argument and the
regex class `\s`: ASCII whitespace plus the common Unicode space
characters. -/
def isPySpace (c : Char) : Bool :=
  c == ' ' || c == '\t' || c == '\n' || c == '\r' ||
  c.toNat == 0x0b || c.toNat == 0x0c ||
  c.toNat == 0x85 || c.toNat == 0xa0 || c.toNat == 0x1680 ||
  (0x2000 <= c.toNat && c.toNat <= 0x200a) ||
  c.toNat == 0x2028 || c.toNat == 0x2029 || c.toNat == 0x202f ||
  c.toNat == 0x205f || c.toNat == 0x3000

/-- Dash-like separators of `TIME_RANGE_RE` and the week-range pattern:
hyphen, tilde, en dash (`[-~–]`). -/
def isDashLike (c : Char) : Bool :=
  c == '-' || c == '~' || c == '–'

/-- Separators of `re.split(r"[,，、]", spec)`: comma, full-width
comma, ideographic enumeration comma. -/
def isCommaLike (c : Char) : Bool :=
  c == ',' || c == '，' || c == '、'

/-- Characters stripped by `cell.strip("- ")` in the table-row filter. -/
def isDashSpace (c : Char) : Bool :=
  c == '-' || c == ' '

/-- Decimal value of a digit string, modelling Python `int` on the
digit-only strings produced by the regexes. -/
def toNum (l : List Char) : Nat :=
  l.foldl (fun a c => 10 * a + (c.toNat - 48)) 0

/-- Strip characters satisfying `p` from both ends, modelling Python
`str.strip(chars)`. -/
def stripBy (p : Char → Bool) (l : List Char) : List Char :=
  ((l.dropWhile p).reverse.dropWhile p).reverse

/-- Python `str.strip()` (no argument): strip whitespace from both ends. -/
def trimWS (l : List Char) : List Char :=
  stripBy isPySpace l

/-- Python `str.splitlines()` restricted to the line boundaries that can
occur here: `\r\n`, `\n`, `\r`, `\x0b`, `\x0c`, `\x1c`, `\x1d`, `\x1e`,
`\x85`, ` `, ` `.  No trailing empty line is produced. -/
def isLineBreak (c : Char) : Bool :=
  c == '\n' || c == '\r' || c.toNat == 0x0b || c.toNat == 0x0c ||
  c.toNat == 0x1c || c.toNat == 0x1d || c.toNat == 0x1e ||
  c.toNat == 0x85 || c.toNat == 0x2028 || c.toNat == 0x2029

/-- Worker for `splitLines`, accumulating the current line in reverse. -/
def splitLinesAux (acc : List Char) : List Char → List (List Char)
  | [] => if acc.isEmpty then [] else [acc.reverse]
  | '\r' :: '\n' :: rest => acc.reverse :: splitLinesAux [] rest
  | c :: rest =>
    if isLineBreak c then acc.reverse :: splitLinesAux [] rest
    else splitLinesAux (c :: acc) rest

/-- Model of `text.splitlines()`. -/
def splitLines (l : List Char) : List (List Char) :=
  splitLinesAux [] l

/-- Split on every character satisfying `p`, keeping empty parts, modelling
Python `str.split(sep)` / `re.split` with a single-character class: `n`
separators yield `n + 1` parts. -/
def splitOnPred (p : Char → Bool) : List Char → List (List Char)
  | [] => [[]]
  | c :: cs =>
    if p c then [] :: splitOnPred p cs
    else
      match splitOnPred p cs with
      | t :: ts => (c :: t) :: ts
      | [] => [[c]]

/-- Match `:\d{2}` at the head of the input; on success return the matched
characters and the remainder.  Part of the `TIME_RANGE_RE` matcher. -/
def matchColonMM : List Char → Option (List Char × List Char)
  | ':' :: d1 :: d2 :: rest =>
    if isDigitCh d1 && isDigitCh d2 then some ([':', d1, d2], rest) else none
  | _ => none

/-- Match `\d{1,2}:\d{2}` at the head of the input, greedily preferring the
two-digit hour exactly as the backtracking regex engine does; on success
return the matched characters (one capture group of `TIME_RANGE_RE`) and
the remainder. -/
def matchClockAt : List Char → Option (List Char × List Char)
  | [] => none
  | c1 :: rest1 =>
    if isDigitCh c1 then
      match rest1 with
      | c2 :: rest2 =>
        if isDigitCh c2 then
          match matchColonMM rest2 with
          | some (g, rest) => some (c1 :: c2 :: g, rest)
          | none =>
            match matchColonMM rest1 with
            | some (g, rest) => some (c1 :: g, rest)
            | none => none
        else
          match matchColonMM rest1 with
          | some (g, rest) => some (c1 :: g, rest)
          | none => none
      | [] => none
    else none

/-- Match the whole pattern
`(\d{1,2}:\d{2})\s*[-~–]\s*(\d{1,2}:\d{2})` anchored at the head of
the input, returning the two capture groups.  `\s*` is maximal-munch,
which agrees with the backtracking engine because no dash-like character
is whitespace. -/
def matchTimeRangeAt (cs : List Char) : Option (String × String) :=
  match matchClockAt cs with
  | none => none
  | some (g1, rest1) =>
    match rest1.dropWhile isPySpace with
    | d :: rest3 =>
      if isDashLike d then
        match matchClockAt (rest3.dropWhile isPySpace) with
        | some (g2, _) => some (String.mk g1, String.mk g2)
        | none => none
      else none
    | [] => none

/-- Model of `TIME_RANGE_RE.search`: try the anchored match at each
position from the left, returning the first success. -/
def searchTimeRange : List Char → Option (String × String)
  | [] => none
  | c :: cs =>
    match matchTimeRangeAt (c :: cs) with
    | some r => some r
    | none => searchTimeRange cs

example : searchTimeRange "* 周五 19:00-21:00".data = some ("19:00", "21:00") := by decide
example : searchTimeRange "10:00~12:00".data = some ("10:00", "12:00") := by decide
example : searchTimeRange "* 周六".data = none := by decide
example : searchTimeRange "25:99-26:61".data = some ("25:99", "26:61") := by decide
example : searchTimeRange "123:45-6:07".data = some ("23:45", "6:07") := by decide

/-- Match `\d{1,2}` greedily at the head of the input (second group of the
week-range pattern, which nothing follows). -/
def matchNum2 : List Char → Option (List Char × List Char)
  | [] => none
  | c1 :: rest =>
    if isDigitCh c1 then
      match rest with
      | c2 :: rest2 => if isDigitCh c2 then some ([c1, c2], rest2) else some ([c1], rest)
      | [] => some ([c1], [])
    else none

/-- Match `\s*[-~–]\s*(\d{1,2})` at the head of the input, returning the
digits of the final group. -/
def matchSepNum (cs : List Char) : Option (List Char) :=
  match cs.dropWhile isPySpace with
  | d :: rest =>
    if isDashLike d then
      match matchNum2 (rest.dropWhile isPySpace) with
      | some (g, _) => some g
      | none => none
    else none
  | [] => none

/-- Model of `re.match(r"(\d{1,2})\s*[-~–]\s*(\d{1,2})", token)` in
`parse_week_spec`: anchored at the start, greedy two-digit first group with
the engine's backtracking, returning the numeric values of both groups. -/
def matchWeekRange : List Char → Option (Nat × Nat)
  | [] => none
  | c1 :: rest1 =>
    if isDigitCh c1 then
      match rest1 with
      | c2 :: rest2 =>
        if isDigitCh c2 then
          match matchSepNum rest2 with
          | some g2 => some (toNum [c1, c2], toNum g2)
          | none =>
            match matchSepNum rest1 with
            | some g2 => some (toNum [c1], toNum g2)
            | none => none
        else
          match matchSepNum rest1 with
          | some g2 => some (toNum [c1], toNum g2)
          | none => none
      | [] => none
    else none

/-- Worker for `findAllNums`, carrying the digits of the current run in
reverse. -/
def findAllNumsAux (cur : List Char) : List Char → List Nat
  | [] => if cur.isEmpty then [] else [toNum cur.reverse]
  | c :: cs =>
    if isDigitCh c then findAllNumsAux (c :: cur) cs
    else if cur.isEmpty then findAllNumsAux [] cs
    else toNum cur.reverse :: findAllNumsAux [] cs

/-- Model of `re.findall(r"\d+", token)`: the numeric values of the maximal
runs of digits, left to right. -/
def findAllNums (l : List Char) : List Nat :=
  findAllNumsAux [] l

/-- Processing of one token of the week specification, lines 55-69 of the
source: skip if blank after stripping, remove the `周` unit character,
then either expand a matched range (`range(start, end + 1)` becomes
`Finset.Ico start (end + 1)`) or collect every run of digits. -/
def parseToken (tok : List Char) : Finset Nat :=
  let t1 := trimWS tok
  if t1.isEmpty then ∅
  else
    let t2 := t1.filter (fun c => !(c == '周'))
    match matchWeekRange t2 with
    | some (sw, ew) =>
      if sw ≤ ew then Finset.Ico sw (ew + 1) else Finset.Ico ew (sw + 1)
    | none => (findAllNums t2).foldl (fun acc n => insert n acc) ∅

/-- Model of the nested function `parse_week_spec` (lines 52-70): split the
specification on comma-like separators and union the contributions of all
tokens. -/
def parse_week_spec (spec : String) : Finset Nat :=
  (splitOnPred isCommaLike spec.data).foldl (fun acc tok => acc ∪ parseToken tok) ∅

example : parse_week_spec "1-4" = {1, 2, 3, 4} := by decide
example : parse_week_spec "5-3" = {3, 4, 5} := by decide
example : parse_week_spec "3-5" = {3, 4, 5} := by decide
example : parse_week_spec "1-4，5、6" = {1, 2, 3, 4, 5, 6} := by decide
example : parse_week_spec "周1-4" = {1, 2, 3, 4} := by decide
example : parse_week_spec "123-5" = {123, 5} := by decide
example : parse_week_spec "5-123" = {5, 6, 7, 8, 9, 10, 11, 12} := by decide

/-- The three weekday keys of `DAY_CONFIG` (lines 18-22). -/
inductive Day where
  | fri
  | sat
  | sun
deriving DecidableEq, Repr

/-- Chinese label of a weekday, the keys of `DAY_CONFIG`. -/
def dayLabel : Day → List Char
  | .fri => ['周', '五']
  | .sat => ['周', '六']
  | .sun => ['周', '日']

/-- One buffered table row `(cells[0], time_match.group(1),
time_match.group(2))` (line 107): week-specification text, start clock,
end clock. -/
abbrev TableRow : Type := String × String × String

/-- Python substring containment `pat in l`, used for the section marker
and the weekday labels. -/
def hasInfix (pat : List Char) : List Char → Bool
  | [] => pat.isEmpty
  | c :: cs => pat.isPrefixOf (c :: cs) || hasInfix pat cs

/-- The dictionary `time_map`, keyed by the three weekdays. -/
structure TMap where
  fri : Option (String × String)
  sat : Option (String × String)
  sun : Option (String × String)
deriving DecidableEq, Repr

/-- Lookup `time_map[day]`. -/
def TMap.get (m : TMap) : Day → Option (String × String)
  | .fri => m.fri
  | .sat => m.sat
  | .sun => m.sun

/-- Assignment `time_map[day] = v`. -/
def TMap.set (m : TMap) : Day → (String × String) → TMap
  | .fri, v => { m with fri := some v }
  | .sat, v => { m with sat := some v }
  | .sun, v => { m with sun := some v }

/-- Python `len(time_map)`: the number of populated weekdays. -/
def TMap.size (m : TMap) : Nat :=
  (if m.fri.isSome then 1 else 0) + (if m.sat.isSome then 1 else 0) +
    (if m.sun.isSome then 1 else 0)

/-- The mutable locals of `extract_time_ranges` (lines 46-50) together with
a `done` flag recording that the `break` on line 134 has fired (lines after
the break are not processed). -/
structure ExtState where
  inWeekSection : Bool
  pendingDay : Option Day
  pendingRows : List TableRow
  timeMap : TMap
  done : Bool
deriving DecidableEq

/-- Initial state of the scan (lines 46-50). -/
def initState : ExtState :=
  { inWeekSection := false, pendingDay := none, pendingRows := [],
    timeMap := { fri := none, sat := none, sun := none }, done := false }

/-- Model of the nested function `choose_table_time` (lines 72-81): with a
current week, the first row whose (non-empty) week set contains it wins;
otherwise the first row with non-empty start and end strings wins. -/
def choose_table_time (cw : Option Nat) (rows : List TableRow) : Option (String × String) :=
  let viaWeek : Option (String × String) :=
    match cw with
    | none => none
    | some w =>
      (rows.find? (fun r =>
        let weeks := parse_week_spec r.1
        decide weeks.Nonempty && decide (w ∈ weeks))).map (fun r => (r.2.1, r.2.2))
  match viaWeek with
  | some v => some v
  | none =>
    (rows.find? (fun r => !r.2.1.isEmpty && !r.2.2.isEmpty)).map (fun r => (r.2.1, r.2.2))

/-- Model of the nested function `finalize_table` (lines 83-90): when a day
and rows are pending, commit the chosen time (if any); always clear the
pending state. -/
def finalize_table (cw : Option Nat) (s : ExtState) : ExtState :=
  let s' :=
    match s.pendingDay, s.pendingRows with
    | some d, r :: rs =>
      match choose_table_time cw (r :: rs) with
      | some v => { s with timeMap := s.timeMap.set d v }
      | none => s
    | _, _ => s
  { s' with pendingDay := none, pendingRows := [] }

/-- Python `line.startswith("|")` on the normalized line. -/
def startsWithPipe : List Char → Bool
  | c :: _ => c == '|'
  | [] => false

/-- Python `line.startswith("*")` on the normalized line. -/
def startsWithStar : List Char → Bool
  | c :: _ => c == '*'
  | [] => false

/-- The section marker phrase of line 93. -/
def sectionMarker : List Char := ['本', '周', '安', '排']

/-- Model of lines 102-108: a `|` line while a day is pending.  The line is
stripped of outer `|` characters, split on `|`, each cell stripped; a row
whose first two cells are not both made of dashes/spaces and whose second
cell contains a time range is buffered. -/
def processTableRow (s : ExtState) (line : List Char) : ExtState :=
  let cells := (splitOnPred (fun c => c == '|') (stripBy (fun c => c == '|') line)).map trimWS
  match cells with
  | c0 :: c1 :: _ =>
    if !((cells.take 2).all fun cell => (stripBy isDashSpace cell).isEmpty) then
      match searchTimeRange c1 with
      | some (g1, g2) => { s with pendingRows := s.pendingRows ++ [(String.mk c0, g1, g2)] }
      | none => s
    else s
  | _ => s

/-- Python `for day in DAY_CONFIG: if day in line` (lines 116-120): the
first weekday label contained in the line, in `DAY_CONFIG` insertion
order. -/
def matchedDay (line : List Char) : Option Day :=
  if hasInfix (dayLabel .fri) line then some .fri
  else if hasInfix (dayLabel .sat) line then some .sat
  else if hasInfix (dayLabel .sun) line then some .sun
  else none

/-- Lines 110-134 of the loop body, after the table-row branch: skip blank
lines while a day pends, skip non-bullet lines, process a bullet line
(inline commit or enter table mode), and fire the `break` once all three
days are populated. -/
def stepTail (s1 : ExtState) (line : List Char) : ExtState :=
  if s1.pendingDay.isSome && line.isEmpty then s1
  else if line.isEmpty || !startsWithStar line then s1
  else
    match matchedDay line with
    | none => s1
    | some d =>
      let s2 :=
        match searchTimeRange line with
        | some g =>
          { s1 with timeMap := s1.timeMap.set d g, pendingDay := none, pendingRows := [] }
        | none => { s1 with pendingDay := some d, pendingRows := [] }
      if s2.timeMap.size = 3 then { s2 with done := true } else s2

/-- One iteration of the loop over normalized lines (lines 92-134).  A set
`done` flag models the executed `break`: remaining lines leave the state
unchanged. -/
def stepLine (cw : Option Nat) (s : ExtState) (line : List Char) : ExtState :=
  if s.done then s
  else if !s.inWeekSection then
    if hasInfix sectionMarker line then { s with inWeekSection := true } else s
  else
    let s1 :=
      if s.pendingDay.isSome && !s.pendingRows.isEmpty && !line.isEmpty &&
          !startsWithPipe line then
        finalize_table cw s
      else s
    if s1.pendingDay.isSome && startsWithPipe line then processTableRow s1 line
    else stepTail s1 line

/-- Line normalization of line 47: strip, then replace the full-width colon
with an ASCII colon. -/
def normLine (l : List Char) : List Char :=
  (trimWS l).map (fun c => if c = '：' then ':' else c)

/-- Model of `extract_time_ranges` (lines 44-139): fold the loop over the
normalized lines, run the trailing finalization of lines 136-137, and
return the time map. -/
def extract_time_ranges (text : String) (current_week : Option Nat) : TMap :=
  let lines := (splitLines text.data).map normLine
  let final := lines.foldl (stepLine current_week) initState
  let final2 :=
    if final.pendingDay.isSome && !final.pendingRows.isEmpty then
      finalize_table current_week final
    else final
  final2.timeMap

example :
    extract_time_ranges "本周安排\n* 周五 19:00-21:00\n* 周六 09:00-11:00\n* 周日 10:00~12:00" none =
      { fri := some ("19:00", "21:00"), sat := some ("09:00", "11:00"),
        sun := some ("10:00", "12:00") } := by decide

example :
    extract_time_ranges "* 周五 19:00-21:00" none =
      { fri := none, sat := none, sun := none } := by decide

example :
    extract_time_ranges "本周安排\n* 周六\n| 周次 | 时间 |\n| --- | --- |\n| 1-4 | 08:00-10:00 |\n| 5-8 | 09:00-11:00 |\nx" (some 5) =
      { fri := none, sat := some ("09:00", "11:00"), sun := none } := by decide

example :
    extract_time_ranges "本周安排\n* 周六\n| 1-4 | 08:00-10:00 |\n| 5-8 | 09:00-11:00 |" none =
      { fri := none, sat := some ("08:00", "10:00"), sun := none } := by decide

/-- Variant of `processTableRow` in which the only operations that could
raise in Python — the `cells[0]` and `cells[1]` subscripts guarded by
`len(cells) >= 2` on line 104 — are modelled as fallible lookups. -/
def processTableRowE (s : ExtState) (line : List Char) : Except String ExtState :=
  let cells := (splitOnPred (fun c => c == '|') (stripBy (fun c => c == '|') line)).map trimWS
  if 2 ≤ cells.length then
    if !((cells.take 2).all fun cell => (stripBy isDashSpace cell).isEmpty) then
      match cells[0]?, cells[1]? with
      | some c0, some c1 =>
        match searchTimeRange c1 with
        | some (g1, g2) => .ok { s with pendingRows := s.pendingRows ++ [(String.mk c0, g1, g2)] }
        | none => .ok s
      | _, _ => .error "IndexError"
    else .ok s
  else .ok s

/-- Variant of `stepLine` propagating the fallible table-row branch. -/
def stepLineE (cw : Option Nat) (s : ExtState) (line : List Char) : Except String ExtState :=
  if s.done then .ok s
  else if !s.inWeekSection then
    .ok (if hasInfix sectionMarker line then { s with inWeekSection := true } else s)
  else
    let s1 :=
      if s.pendingDay.isSome && !s.pendingRows.isEmpty && !line.isEmpty &&
          !startsWithPipe line then
        finalize_table cw s
      else s
    if s1.pendingDay.isSome && startsWithPipe line then processTableRowE s1 line
    else .ok (stepTail s1 line)

/-- Fold of `stepLineE` over the lines, stopping at the first error. -/
def foldStepsE (cw : Option Nat) : ExtState → List (List Char) → Except String ExtState
  | s, [] => .ok s
  | s, l :: ls =>
    match stepLineE cw s l with
    | .ok s' => foldStepsE cw s' ls
    | .error e => .error e

/-- Variant of `extract_time_ranges` in which every guarded partial
operation of the Python body is modelled as fallible. -/
def extract_time_rangesE (text : String) (current_week : Option Nat) : Except String TMap :=
  match foldStepsE current_week initState ((splitLines text.data).map normLine) with
  | .error e => .error e
  | .ok final =>
    let final2 :=
      if final.pendingDay.isSome && !final.pendingRows.isEmpty then
        finalize_table current_week final
      else final
    .ok final2.timeMap

/-- The primary URL of line 7. -/
def PRIMARY_URL : String := "https://czq.rth1.xyz/time"

/-- The fallback proxy URL of line 8. -/
def FALLBACK_URL : String := "https://r.jina.ai/" ++ PRIMARY_URL

/-- Outcome of one HTTP request, the interface through which
`fetch_content` touches the network: a body, an `HTTPError` with a status
code, or any other exception. -/
inductive FetchOutcome where
  | success (body : String)
  | httpError (code : Nat)
  | otherError (msg : String)
deriving DecidableEq

/-- The list `attempts` of line 28. -/
def attemptList : List (String × String) :=
  [("primary", PRIMARY_URL), ("fallback", FALLBACK_URL)]

/-- Loop of lines 30-41 over the attempts, parameterized by the network
behaviour `env`.  The first component records which URLs were actually
requested; the second is the returned pair or, after the loop, the
`RuntimeError` of line 42 carrying `last_exc`.  The two identical branches
of the `httpError` case mirror lines 38-39 of the source: the guarded
`continue` and falling off the end of the `except` block both advance the
`for` loop, so the `exc.code == 403` test does not change behaviour. -/
def fetchAux (env : String → FetchOutcome) :
    Option FetchOutcome → List (String × String) → List String × Except (Option FetchOutcome) (String × String)
  | last, [] => ([], .error last)
  | last, (label, url) :: rest =>
    match env url with
    | .success body => ([url], .ok (body, label))
    | .httpError c =>
      if c == 403 && url != FALLBACK_URL then
        let r := fetchAux env (some (.httpError c)) rest
        (url :: r.1, r.2)
      else
        let r := fetchAux env (some (.httpError c)) rest
        (url :: r.1, r.2)
    | .otherError m =>
      let r := fetchAux env (some (.otherError m)) rest
      (url :: r.1, r.2)

/-- Model of `fetch_content` (lines 26-42). -/
def fetch_content (env : String → FetchOutcome) :
    List String × Except (Option FetchOutcome) (String × String) :=
  fetchAux env none attemptList

/-- Python `int(l)` on a string, failing unless it is a non-empty digit
string (the only shapes reaching it in `parse_clock`). -/
def strToNatE (l : List Char) : Except String Nat :=
  if !l.isEmpty && l.all isDigitCh then .ok (toNum l) else .error "ValueError: invalid literal"

/-- Model of `parse_clock` (lines 143-145): split on `:`, convert both
parts with `int`, and build a `datetime.time`, which raises unless the
hour is below 24 and the minute below 60. -/
def parse_clock (s : String) : Except String (Nat × Nat) :=
  match splitOnPred (fun c => c == ':') s.data with
  | [h, m] =>
    match strToNatE h, strToNatE m with
    | .ok hv, .ok mv =>
      if hv ≤ 23 && mv ≤ 59 then .ok (hv, mv) else .error "ValueError: time out of range"
    | .error e, _ => .error e
    | _, .error e => .error e
  | _ => .error "ValueError: unpack"

/-- Clock pair of one weekday in the events loop of lines 214-230:
`time_map[day_cn]` followed by `parse_clock` on both components. -/
def dayEntry (tm : TMap) (d : Day) : Except String ((Nat × Nat) × (Nat × Nat)) :=
  match tm.get d with
  | none => .error "KeyError"
  | some (sc, ec) =>
    match parse_clock sc, parse_clock ec with
    | .ok a, .ok b => .ok (a, b)
    | .error e, _ => .error e
    | _, .error e => .error e

/-- The message of the `SystemExit` raised on line 209. -/
def incompleteMsg : String :=
  "Failed to parse all weekend slots. The page layout may have changed."

/-- Model of the decision flow of `main` (lines 202-234) downstream of the
fetch, with the fetched text and the computed ISO week as inputs: extract,
abort fatally when fewer than three weekdays resolved (line 208-209, before
any output exists), otherwise parse the committed clocks for the three
days in `DAY_CONFIG` order.  A `.ok` result is the state in which the
calendar text is built and written (lines 232-233). -/
def mainModel (content : String) (current_week : Nat) :
    Except String (List ((Nat × Nat) × (Nat × Nat))) :=
  let tm := extract_time_ranges content (some current_week)
  if tm.size < 3 then .error incompleteMsg
  else
    match dayEntry tm .fri, dayEntry tm .sat, dayEntry tm .sun with
    | .ok f, .ok s, .ok u => .ok [f, s, u]
    | .error e, _, _ => .error e
    | _, .error e, _ => .error e
    | _, _, .error e => .error e

example :
    mainModel "本周安排\n* 周五 19:00-21:00\n* 周六 09:00-11:00\n* 周日 10:00~12:00" 5 =
      .ok [((19, 0), (21, 0)), ((9, 0), (11, 0)), ((10, 0), (12, 0))] := rfl

example : mainModel "no marker" 5 = .error incompleteMsg := rfl

/-- Chooser written from the words of the specification for C1: with a
current week, the first row whose week set contains it; otherwise —
including when no row's week set contains the supplied week — the first
row with both clock strings present. -/
def choose_by_claim (cw : Option Nat) (rows : List TableRow) : Option (String × String) :=
  let firstWithBoth : Option (String × String) :=
    (rows.find? (fun r => !r.2.1.isEmpty && !r.2.2.isEmpty)).map (fun r => (r.2.1, r.2.2))
  match cw with
  | none => firstWithBoth
  | some w =>
    match rows.find? (fun r => decide (w ∈ parse_week_spec r.1)) with
    | some r => some (r.2.1, r.2.2)
    | none => firstWithBoth

/-- Numeric reading of a clock string of the shape `digits ':' digits`:
the (hour, minute) pair. -/
def clockNums (s : String) : Option (Nat × Nat) :=
  let h := s.data.takeWhile isDigitCh
  match s.data.dropWhile isDigitCh with
  | ':' :: m =>
    if !h.isEmpty && !m.isEmpty && m.all isDigitCh then some (toNum h, toNum m) else none
  | _ => none

/-- A clock string denoting a valid `TimeOfDay` in the sense of the
specification's data model: hour in `[0, 23]`, minute in `[0, 59]`. -/
def validClock (s : String) : Prop :=
  ∃ hv mv, clockNums s = some (hv, mv) ∧ hv ≤ 23 ∧ mv ≤ 59

/-- The syntactic shape every committed clock string actually has: one or
two digits for the hour, a colon, exactly two digits for the minute, hence
numeric values at most 99 on both sides. -/
def clockShape (s : String) : Prop :=
  ∃ hd md, s.data = hd ++ ':' :: md ∧ hd ≠ [] ∧ hd.length ≤ 2 ∧
    hd.all isDigitCh = true ∧ md.length = 2 ∧ md.all isDigitCh = true ∧
    toNum hd ≤ 99 ∧ toNum md ≤ 99

/-- All intermediate states of the scan of `extract_time_ranges` over a
document, including the initial one. -/
def statesOf (text : String) (cw : Option Nat) : List ExtState :=
  List.scanl (stepLine cw) initState ((splitLines text.data).map normLine)

/-- Hypothesis of the fallback rule: either no current week was supplied,
or no buffered row's week set contains it. -/
def weekMiss (cw : Option Nat) (rows : List TableRow) : Prop :=
  ∀ w, cw = some w → ∀ r ∈ rows, w ∉ parse_week_spec r.1

/-- Rendering of a number below 100 as its decimal digit characters. -/
def dChar (n : Nat) : Char := Char.ofNat (48 + n)

/-- Decimal rendering of `n ≤ 99` with one or two digit characters. -/
def natStr (n : Nat) : List Char :=
  if n < 10 then [dChar n] else [dChar (n / 10), dChar (n % 10)]

theorem tmap_size_le_three (m : TMap) : m.size ≤ 3 := by
  unfold TMap.size
  split_ifs <;> omega

theorem nonempty_and_mem_decide (w : Nat) (s : Finset Nat) :
    (decide s.Nonempty && decide (w ∈ s)) = decide (w ∈ s) := by
  by_cases h : w ∈ s
  · have hne : s.Nonempty := ⟨w, h⟩
    simp [h, hne]
  · simp [h]

/-- C1: for every finalized table block, the committed `TimeRange` follows
the precedence of the claim: with a supplied current week, the first
buffered row whose parsed `WeekSpecification` contains it; otherwise
(including when no row's week set contains the supplied week) the first
buffered row with both a start and an end time; and when neither rule
yields a row, finalization leaves the time map unchanged, so the weekday
stays absent. -/
theorem choose_table_time_precedence :
    (∀ cw rows, choose_table_time cw rows = choose_by_claim cw rows) ∧
    (∀ cw s, choose_table_time cw s.pendingRows = none →
      (finalize_table cw s).timeMap = s.timeMap) := by
  constructor
  · intro cw rows
    cases cw with
    | none => rfl
    | some w =>
      unfold choose_table_time choose_by_claim
      simp only
      have hp : (fun r : TableRow =>
            decide (parse_week_spec r.1).Nonempty && decide (w ∈ parse_week_spec r.1)) =
          (fun r : TableRow => decide (w ∈ parse_week_spec r.1)) :=
        funext fun r => nonempty_and_mem_decide w _
      rw [hp]
      cases h : rows.find? (fun r => decide (w ∈ parse_week_spec r.1)) <;> simp [h]
  · intro cw s h
    unfold finalize_table
    cases hd : s.pendingDay with
    | none => cases hr : s.pendingRows <;> simp [hd, hr]
    | some d =>
      cases hr : s.pendingRows with
      | nil => simp [hd, hr]
      | cons r rs =>
        rw [hr] at h
        simp [hd, hr, h]

theorem choose_table_time_precedence_witness :
    (finalize_table none
        { initState with pendingDay := some .sat, pendingRows := [("1", "", "")] }).timeMap =
      ({ initState with pendingDay := some .sat, pendingRows := [("1", "", "")]} : ExtState).timeMap :=
  choose_table_time_precedence.2 none _ (by decide)

/-- C2: the program writes a calendar only from a complete extraction.  In
the model of `main`, an extraction with fewer than three resolved weekdays
yields exactly the fatal `SystemExit` error before any output exists, and
every run that reaches the write step (an `.ok` result) had all three
weekdays resolved. -/
theorem main_no_partial_output :
    ∀ content cw,
      ((extract_time_ranges content (some cw)).size < 3 →
        mainModel content cw = .error incompleteMsg) ∧
      (∀ out, mainModel content cw = .ok out →
        (extract_time_ranges content (some cw)).size = 3) := by
  intro content cw
  constructor
  · intro h
    unfold mainModel
    rw [if_pos h]
  · intro out h
    unfold mainModel at h
    by_cases hs : (extract_time_ranges content (some cw)).size < 3
    · rw [if_pos hs] at h
      exact absurd h (by simp)
    · have hle := tmap_size_le_three (extract_time_ranges content (some cw))
      omega

theorem main_no_partial_output_witness :
    mainModel "" 1 = .error incompleteMsg ∧
      (extract_time_ranges "本周安排\n* 周五 19:00-21:00\n* 周六 09:00-11:00\n* 周日 10:00~12:00" (some 1)).size = 3 :=
  ⟨(main_no_partial_output "" 1).1 (by decide),
   (main_no_partial_output "本周安排\n* 周五 19:00-21:00\n* 周六 09:00-11:00\n* 周日 10:00~12:00" 1).2
     [((19, 0), (21, 0)), ((9, 0), (11, 0)), ((10, 0), (12, 0))] rfl⟩

/-- Network behaviour in which the primary URL fails with a non-forbidden
HTTP status (500) and the proxy answers. -/
def env500 : String → FetchOutcome := fun url =>
  if url = PRIMARY_URL then .httpError 500 else .success "page"

/-- C4, counterexample: the claim says that on a non-403 failure of the
primary request no fallback attempt is made and a fatal fetch error is
raised.  On a 500 from the primary URL the code requests the fallback URL
too and returns its body successfully. -/
theorem fetch_content_non403_counterexample :
    fetch_content env500 = ([PRIMARY_URL, FALLBACK_URL], .ok ("page", "fallback")) := rfl

/-- C4, amended: the fallback URL is attempted after every failure of the
primary request — any HTTP status, or any other exception — and the fatal
fetch error, carrying the last underlying cause, is raised only when both
attempts fail.  (The `exc.code == 403` test on line 38 guards a `continue`
that is equivalent to falling off the `except` block, so it does not
change behaviour.) -/
theorem fetch_fallback_on_any_failure :
    ∀ env : String → FetchOutcome,
      (∀ b, env PRIMARY_URL = .success b →
        fetch_content env = ([PRIMARY_URL], .ok (b, "primary"))) ∧
      (∀ f, env PRIMARY_URL = f → (∀ b, f ≠ .success b) →
        ∀ b2, env FALLBACK_URL = .success b2 →
          fetch_content env = ([PRIMARY_URL, FALLBACK_URL], .ok (b2, "fallback"))) ∧
      (∀ f g, env PRIMARY_URL = f → env FALLBACK_URL = g →
        (∀ b, f ≠ .success b) → (∀ b, g ≠ .success b) →
          fetch_content env = ([PRIMARY_URL, FALLBACK_URL], .error (some g))) := by
  intro env
  refine ⟨?_, ?_, ?_⟩
  · intro b hb
    simp only [fetch_content, attemptList, fetchAux, hb]
  · intro f hf hnot b2 hb2
    cases f with
    | success b => exact absurd rfl (hnot b)
    | httpError c =>
      simp only [fetch_content, attemptList, fetchAux, hf, hb2]
      split <;> rfl
    | otherError m =>
      simp only [fetch_content, attemptList, fetchAux, hf, hb2]
  · intro f g hf hg hnf hng
    cases f with
    | success b => exact absurd rfl (hnf b)
    | httpError c =>
      cases g with
      | success b => exact absurd rfl (hng b)
      | httpError c2 =>
        simp only [fetch_content, attemptList, fetchAux, hf, hg]
        split <;> split <;> rfl
      | otherError m2 =>
        simp only [fetch_content, attemptList, fetchAux, hf, hg]
        split <;> rfl
    | otherError m =>
      cases g with
      | success b => exact absurd rfl (hng b)
      | httpError c2 =>
        simp only [fetch_content, attemptList, fetchAux, hf, hg]
        split <;> rfl
      | otherError m2 =>
        simp only [fetch_content, attemptList, fetchAux, hf, hg]

/-- Network behaviour in which both URLs fail. -/
def envBothFail : String → FetchOutcome := fun url =>
  if url = PRIMARY_URL then .otherError "timeout" else .httpError 500

theorem fetch_fallback_on_any_failure_witness :
    fetch_content (fun _ => FetchOutcome.success "x") = ([PRIMARY_URL], .ok ("x", "primary")) ∧
    fetch_content envBothFail =
      ([PRIMARY_URL, FALLBACK_URL], .error (some (.httpError 500))) :=
  ⟨(fetch_fallback_on_any_failure _).1 "x" rfl,
   (fetch_fallback_on_any_failure envBothFail).2.2 (.otherError "timeout") (.httpError 500)
     (by rfl) (by rfl) (fun b h => by cases h) (fun b h => by cases h)⟩

theorem processTableRowE_ok (s : ExtState) (line : List Char) :
    processTableRowE s line = .ok (processTableRow s line) := by
  unfold processTableRowE processTableRow
  cases h : (splitOnPred (fun c => c == '|') (stripBy (fun c => c == '|') line)).map trimWS with
  | nil => simp
  | cons c0 t =>
    cases t with
    | nil => simp
    | cons c1 t2 =>
      simp only [List.length_cons, List.getElem?_cons_zero, List.getElem?_cons_succ]
      rw [if_pos (by omega)]
      split
      · cases searchTimeRange c1 <;> simp
      · rfl

theorem stepLineE_ok (cw : Option Nat) (s : ExtState) (line : List Char) :
    stepLineE cw s line = .ok (stepLine cw s line) := by
  unfold stepLineE stepLine
  split
  · rfl
  · split
    · rfl
    · dsimp only
      split <;> split <;> first | exact processTableRowE_ok _ _ | rfl

theorem foldStepsE_ok (cw : Option Nat) :
    ∀ (lines : List (List Char)) (s : ExtState),
      foldStepsE cw s lines = .ok (lines.foldl (stepLine cw) s) := by
  intro lines
  induction lines with
  | nil => intro s; rfl
  | cons l ls ih =>
    intro s
    unfold foldStepsE
    rw [stepLineE_ok]
    exact ih _

/-- C5: the extractor is total.  The variant in which every guarded
partial operation of the Python body is modelled as fallible never
produces an error: on every input text and every optional current week it
returns exactly the `ScheduleMap` of the total model, so malformed input
is only ever reported as absence from the result. -/
theorem extract_time_ranges_total :
    ∀ (text : String) (cw : Option Nat),
      extract_time_rangesE text cw = .ok (extract_time_ranges text cw) := by
  intro text cw
  unfold extract_time_rangesE extract_time_ranges
  rw [foldStepsE_ok]

theorem startsWithStar_ne_empty {l : List Char} (h : startsWithStar l = true) :
    l.isEmpty = false := by
  cases l with
  | nil => simp [startsWithStar] at h
  | cons c cs => rfl

theorem startsWithStar_not_pipe {l : List Char} (h : startsWithStar l = true) :
    startsWithPipe l = false := by
  cases l with
  | nil => simp [startsWithStar] at h
  | cons c cs =>
    simp only [startsWithStar, beq_iff_eq] at h
    simp [startsWithPipe, h]

theorem startsWithPipe_ne_empty {l : List Char} (h : startsWithPipe l = true) :
    l.isEmpty = false := by
  cases l with
  | nil => simp [startsWithPipe] at h
  | cons c cs => rfl

theorem startsWithPipe_not_star {l : List Char} (h : startsWithPipe l = true) :
    startsWithStar l = false := by
  cases l with
  | nil => simp [startsWithPipe] at h
  | cons c cs =>
    simp only [startsWithPipe, beq_iff_eq] at h
    simp [startsWithStar, h]

theorem TMap.get_set_self (m : TMap) (d : Day) (v : String × String) :
    (m.set d v).get d = some v := by
  cases d <;> rfl

theorem finalize_table_fields (cw : Option Nat) (s : ExtState) :
    (finalize_table cw s).inWeekSection = s.inWeekSection ∧
    (finalize_table cw s).done = s.done ∧
    (finalize_table cw s).pendingDay = none ∧
    (finalize_table cw s).pendingRows = [] := by
  unfold finalize_table
  cases hd : s.pendingDay with
  | none => simp
  | some d =>
    cases hr : s.pendingRows with
    | nil => simp
    | cons r rs =>
      cases hc : choose_table_time cw (r :: rs) <;> simp [hc]

theorem stepLine_eq_tail (cw : Option Nat) (s : ExtState) (line : List Char)
    (hdone : s.done = false) (hsec : s.inWeekSection = true)
    (hpipe : startsWithPipe line = false) :
    stepLine cw s line =
      stepTail
        (if s.pendingDay.isSome && !s.pendingRows.isEmpty && !line.isEmpty &&
            !startsWithPipe line then finalize_table cw s
         else s)
        line := by
  unfold stepLine
  rw [hdone, hsec, hpipe]
  simp

theorem stepTail_commit (s1 : ExtState) (line : List Char) (d : Day) (g : String × String)
    (hstar : startsWithStar line = true) (hday : matchedDay line = some d)
    (hsearch : searchTimeRange line = some g) :
    (stepTail s1 line).timeMap = s1.timeMap.set d g ∧
    (stepTail s1 line).pendingDay = none ∧
    (stepTail s1 line).pendingRows = [] ∧
    (stepTail s1 line).inWeekSection = s1.inWeekSection := by
  have hne := startsWithStar_ne_empty hstar
  unfold stepTail
  rw [hne, hstar, hday, hsearch]
  split
  · simp_all
  · split
    · simp_all
    · dsimp only
      split <;> simp

theorem stepLine_pipe_noop (cw : Option Nat) (s : ExtState) (l : List Char)
    (hpd : s.pendingDay = none) (hsec : s.inWeekSection = true)
    (hl : startsWithPipe l = true) :
    stepLine cw s l = s := by
  cases hd : s.done with
  | true => simp [stepLine, hd]
  | false =>
    unfold stepLine
    rw [hd, hsec]
    simp only [Bool.not_true, if_false, Bool.false_and, hpd, Option.isSome_none]
    unfold stepTail
    simp [hpd, startsWithPipe_ne_empty hl, startsWithPipe_not_star hl]

theorem foldl_pipe_noop (cw : Option Nat) (s : ExtState) (rest : List (List Char))
    (hpd : s.pendingDay = none) (hsec : s.inWeekSection = true)
    (hrest : ∀ l ∈ rest, startsWithPipe l = true) :
    List.foldl (stepLine cw) s rest = s := by
  induction rest with
  | nil => rfl
  | cons l ls ih =>
    rw [List.foldl_cons, stepLine_pipe_noop cw s l hpd hsec (hrest l (by simp))]
    exact ih (fun x hx => hrest x (by simp [hx]))

/-- C3: a bullet line carrying a weekday label and an inline time range
commits the pair at once and clears the pending-table state; any table
lines that follow (lines starting with `|`) leave the committed range for
that label untouched. -/
theorem inline_commit_beats_table :
    ∀ (cw : Option Nat) (s : ExtState) (line : List Char) (d : Day)
      (g : String × String) (rest : List (List Char)),
      s.done = false → s.inWeekSection = true →
      startsWithStar line = true → matchedDay line = some d →
      searchTimeRange line = some g →
      (∀ l ∈ rest, startsWithPipe l = true) →
      (stepLine cw s line).timeMap.get d = some g ∧
      (stepLine cw s line).pendingDay = none ∧
      (List.foldl (stepLine cw) (stepLine cw s line) rest).timeMap.get d = some g := by
  intro cw s line d g rest hdone hsec hstar hday hsearch hrest
  have hpipe := startsWithStar_not_pipe hstar
  rw [stepLine_eq_tail cw s line hdone hsec hpipe]
  set s1 := if s.pendingDay.isSome && !s.pendingRows.isEmpty && !line.isEmpty &&
      !startsWithPipe line then finalize_table cw s else s with hs1
  obtain ⟨hmap, hpd, hrows, hsecs⟩ := stepTail_commit s1 line d g hstar hday hsearch
  have hsec1 : s1.inWeekSection = true := by
    rw [hs1]
    split
    · rw [(finalize_table_fields cw s).1, hsec]
    · exact hsec
  refine ⟨?_, hpd, ?_⟩
  · rw [hmap, TMap.get_set_self]
  · rw [foldl_pipe_noop cw _ rest hpd (by rw [hsecs, hsec1]) hrest, hmap,
      TMap.get_set_self]

theorem inline_commit_beats_table_witness :
    (stepLine none { initState with inWeekSection := true }
        "* 周五 19:00-21:00".data).timeMap.get .fri = some ("19:00", "21:00") ∧
    (stepLine none { initState with inWeekSection := true }
        "* 周五 19:00-21:00".data).pendingDay = none ∧
    (List.foldl (stepLine none)
        (stepLine none { initState with inWeekSection := true } "* 周五 19:00-21:00".data)
        ["| 1-20 | 07:00-08:00 |".data]).timeMap.get .fri = some ("19:00", "21:00") :=
  inline_commit_beats_table none _ _ .fri ("19:00", "21:00") _ rfl rfl (by decide)
    (by decide) (by decide) (by decide)

/-- C7, counterexample: while a table is pending for Saturday with no rows
buffered yet, the non-blank non-`|` line `hello` does not end the table
block — the pending day survives it, and a `|` row after it is still
buffered and committed, while the claim says every such line ends the
block regardless of whether rows were buffered. -/
theorem table_not_ended_counterexample :
    (List.foldl (stepLine none) initState
        ((splitLines "本周安排\n* 周六\nhello".data).map normLine)).pendingDay =
      some .sat ∧
    (extract_time_ranges "本周安排\n* 周六\nhello\n| 1-20 | 09:00-11:00 |" none).get .sat =
      some ("09:00", "11:00") := by
  exact ⟨by decide, by decide⟩

/-- C7, amended: while inside a table block, a blank line is skipped
without ending the table; a non-blank line that starts with neither `|`
nor `*` ends the block and finalizes only when at least one row has been
buffered — with no buffered rows it leaves the state, including the
pending day, unchanged. -/
theorem table_block_boundary :
    ∀ (cw : Option Nat) (s : ExtState) (line : List Char) (d : Day),
      s.done = false → s.inWeekSection = true → s.pendingDay = some d →
      ((line = [] → stepLine cw s line = s) ∧
       (line ≠ [] → startsWithPipe line = false → startsWithStar line = false →
         s.pendingRows ≠ [] → stepLine cw s line = finalize_table cw s) ∧
       (line ≠ [] → startsWithPipe line = false → startsWithStar line = false →
         s.pendingRows = [] → stepLine cw s line = s)) := by
  intro cw s line d hdone hsec hpd
  refine ⟨?_, ?_, ?_⟩
  · intro hl
    subst hl
    unfold stepLine
    rw [hdone, hsec]
    simp only [Bool.not_true, Bool.and_false, List.isEmpty_nil, startsWithPipe]
    unfold stepTail
    simp [hpd]
  · intro hl hpipe hstar hrows
    have hle : line.isEmpty = false := by
      cases line with
      | nil => exact absurd rfl hl
      | cons c cs => rfl
    have hre : s.pendingRows.isEmpty = false := by
      cases hr : s.pendingRows
      · exact absurd hr hrows
      · rfl
    unfold stepLine
    rw [hdone, hsec, hpd, hle, hre, hpipe]
    simp only [Bool.not_true, Bool.not_false, Option.isSome_some, Bool.and_true,
      Bool.true_and, if_true]
    rw [(finalize_table_fields cw s).2.2.1]
    unfold stepTail
    simp [hle, hstar]
  · intro hl hpipe hstar hrows
    have hle : line.isEmpty = false := by
      cases line with
      | nil => exact absurd rfl hl
      | cons c cs => rfl
    have hre : s.pendingRows.isEmpty = true := by rw [hrows]; rfl
    unfold stepLine
    rw [hdone, hsec, hpd, hle, hre, hpipe]
    simp only [Bool.not_true, Bool.not_false, Option.isSome_some, Bool.and_false,
      Bool.false_and, Bool.and_true, Bool.true_and, if_false]
    unfold stepTail
    simp [hpd, hle, hstar]

theorem table_block_boundary_witness :
    stepLine none
        { initState with inWeekSection := true, pendingDay := some .sat }
        "hello".data =
      { initState with inWeekSection := true, pendingDay := some .sat } :=
  (table_block_boundary none _ "hello".data .sat rfl rfl rfl).2.2 (by decide)
    (by decide) (by decide) rfl

theorem stepLine_done_noop (cw : Option Nat) (s : ExtState) (l : List Char)
    (h : s.done = true) : stepLine cw s l = s := by
  unfold stepLine
  rw [h]
  rfl

theorem stepTail_done_iff (s1 : ExtState) (line : List Char) (d : Day)
    (hdone : s1.done = false) (hstar : startsWithStar line = true)
    (hday : matchedDay line = some d) :
    ((stepTail s1 line).done = true ↔ (stepTail s1 line).timeMap.size = 3) := by
  have hne := startsWithStar_ne_empty hstar
  unfold stepTail
  rw [hne, hstar, hday]
  split
  · simp_all
  · split
    · simp_all
    · dsimp only
      cases hsr : searchTimeRange line <;> dsimp only <;> split <;> simp_all

/-- C8, counterexample: when the third entry is committed by a table
finalization triggered by a non-bullet line (`x`), scanning does not stop
— after the sixth line all three weekdays are committed with
Friday 19:00-21:00, yet the seventh line `* 周五 07:00-08:00` is still
processed and overwrites the committed Friday entry. -/
theorem commit_changed_after_third_counterexample :
    (List.foldl (stepLine none) initState
        ((splitLines "本周安排\n* 周五 19:00-21:00\n* 周六 09:00-11:00\n* 周日\n| 1-20 | 10:00-12:00 |\nx".data).map
          normLine)).timeMap.size = 3 ∧
    (List.foldl (stepLine none) initState
        ((splitLines "本周安排\n* 周五 19:00-21:00\n* 周六 09:00-11:00\n* 周日\n| 1-20 | 10:00-12:00 |\nx".data).map
          normLine)).timeMap.get .fri = some ("19:00", "21:00") ∧
    (extract_time_ranges
        "本周安排\n* 周五 19:00-21:00\n* 周六 09:00-11:00\n* 周日\n| 1-20 | 10:00-12:00 |\nx\n* 周五 07:00-08:00"
        none).get .fri = some ("07:00", "08:00") := by
  exact ⟨by decide, by decide, by decide⟩

/-- C8, amended: the stop check of line 133 runs only after processing a
bullet line that matched a weekday label.  Once it has fired (the `break`
executed), no later line is processed; and on any bullet line with a
matched weekday the scan stops exactly when the resulting map holds all
three entries.  (When the third entry is instead committed by a table
finalization triggered by a non-bullet line, scanning continues and a
later bullet line can overwrite a committed entry, as the counterexample
shows.) -/
theorem scan_stop_check_on_bullet :
    (∀ (cw : Option Nat) (s : ExtState) (lines : List (List Char)),
      s.done = true → List.foldl (stepLine cw) s lines = s) ∧
    (∀ (cw : Option Nat) (s : ExtState) (line : List Char) (d : Day),
      s.done = false → s.inWeekSection = true →
      startsWithStar line = true → matchedDay line = some d →
      ((stepLine cw s line).done = true ↔ (stepLine cw s line).timeMap.size = 3)) := by
  constructor
  · intro cw s lines h
    induction lines with
    | nil => rfl
    | cons l ls ih => rw [List.foldl_cons, stepLine_done_noop cw s l h]; exact ih
  · intro cw s line d hdone hsec hstar hday
    rw [stepLine_eq_tail cw s line hdone hsec (startsWithStar_not_pipe hstar)]
    set s1 := if s.pendingDay.isSome && !s.pendingRows.isEmpty && !line.isEmpty &&
        !startsWithPipe line then finalize_table cw s else s with hs1
    have hdone1 : s1.done = false := by
      rw [hs1]
      split
      · rw [(finalize_table_fields cw s).2.1, hdone]
      · exact hdone
    exact stepTail_done_iff s1 line d hdone1 hstar hday

theorem scan_stop_check_on_bullet_witness :
    (List.foldl (stepLine none)
        { initState with inWeekSection := true, done := true } ["x".data] =
      { initState with inWeekSection := true, done := true }) ∧
    ((stepLine none { initState with inWeekSection := true }
          "* 周五 19:00-21:00".data).done = true ↔
      (stepLine none { initState with inWeekSection := true }
          "* 周五 19:00-21:00".data).timeMap.size = 3) :=
  ⟨scan_stop_check_on_bullet.1 none _ ["x".data] rfl,
   scan_stop_check_on_bullet.2 none _ _ .fri rfl rfl (by decide) (by decide)⟩

theorem matchColonMM_shape {l g r : List Char} (h : matchColonMM l = some (g, r)) :
    ∃ d1 d2, l = ':' :: d1 :: d2 :: r ∧ isDigitCh d1 = true ∧ isDigitCh d2 = true ∧
      g = [':', d1, d2] := by
  unfold matchColonMM at h
  split at h
  · rename_i d1 d2 rest
    split at h
    · rename_i hd
      simp only [Option.some.injEq, Prod.mk.injEq] at h
      obtain ⟨hg, hr⟩ := h
      simp only [Bool.and_eq_true] at hd
      obtain ⟨h1, h2⟩ := hd
      exact ⟨d1, d2, by rw [hr], h1, h2, hg.symm⟩
    · exact absurd h (by simp)
  · exact absurd h (by simp)

theorem matchClockAt_shape {cs g rest : List Char} (h : matchClockAt cs = some (g, rest)) :
    ∃ hd md, g = hd ++ ':' :: md ∧ hd ≠ [] ∧ hd.length ≤ 2 ∧ hd.all isDigitCh = true ∧
      md.length = 2 ∧ md.all isDigitCh = true := by
  unfold matchClockAt at h
  split at h
  · exact absurd h (by simp)
  · rename_i c1 rest1
    split at h
    · rename_i hc1
      split at h
      · rename_i c2 rest2
        split at h
        · rename_i hc2
          split at h
          · rename_i p hcm
            obtain ⟨d1, d2, hl, hd1, hd2, hg0⟩ := matchColonMM_shape hcm
            simp only [Option.some.injEq, Prod.mk.injEq] at h
            obtain ⟨hg, _⟩ := h
            refine ⟨[c1, c2], [d1, d2], ?_, by simp, by simp, ?_, by simp, ?_⟩
            · rw [← hg, hg0]
              rfl
            · simp [hc1, hc2]
            · simp [hd1, hd2]
          · split at h
            · rename_i p2 hcm2
              obtain ⟨e1, e2, heq2, _, _, _⟩ := matchColonMM_shape hcm2
              rw [List.cons.injEq] at heq2
              rw [heq2.1] at hc2
              simp [isDigitCh] at hc2
            · exact absurd h (by simp)
        · split at h
          · rename_i p hcm
            obtain ⟨d1, d2, hl, hd1, hd2, hg0⟩ := matchColonMM_shape hcm
            simp only [Option.some.injEq, Prod.mk.injEq] at h
            obtain ⟨hg, _⟩ := h
            refine ⟨[c1], [d1, d2], ?_, by simp, by simp, ?_, by simp, ?_⟩
            · rw [← hg, hg0]
              rfl
            · simp [hc1]
            · simp [hd1, hd2]
          · exact absurd h (by simp)
      · exact absurd h (by simp)
    · exact absurd h (by simp)

theorem toNum_le_99 {hd : List Char} (h1 : hd.all isDigitCh = true) (h2 : hd.length ≤ 2) :
    toNum hd ≤ 99 := by
  match hd with
  | [] => simp [toNum]
  | [a] =>
    simp only [List.all_cons, List.all_nil, Bool.and_true] at h1
    simp only [isDigitCh, Bool.and_eq_true, decide_eq_true_eq] at h1
    simp only [toNum, List.foldl]
    omega
  | [a, b] =>
    simp only [List.all_cons, List.all_nil, Bool.and_true, Bool.and_eq_true] at h1
    obtain ⟨ha, hb⟩ := h1
    simp only [isDigitCh, Bool.and_eq_true, decide_eq_true_eq] at ha hb
    simp only [toNum, List.foldl]
    omega
  | a :: b :: c :: t => simp at h2

theorem clockShape_of_matchClockAt {cs g rest : List Char}
    (h : matchClockAt cs = some (g, rest)) : clockShape (String.mk g) := by
  obtain ⟨hd, md, hg, hne, hlen, hall, hmlen, hmall⟩ := matchClockAt_shape h
  exact ⟨hd, md, by simp [hg], hne, hlen, hall, hmlen, hmall,
    toNum_le_99 hall hlen, toNum_le_99 hmall (by omega)⟩

theorem clockShape_of_matchTimeRangeAt {cs : List Char} {g1 g2 : String}
    (h : matchTimeRangeAt cs = some (g1, g2)) : clockShape g1 ∧ clockShape g2 := by
  unfold matchTimeRangeAt at h
  split at h
  · exact absurd h (by simp)
  · rename_i ga rest1 hca
    split at h
    · rename_i d rest3
      split at h
      · split at h
        · rename_i gb hcb
          simp only [Option.some.injEq, Prod.mk.injEq] at h
          obtain ⟨h1, h2⟩ := h
          rename_i rest4
          exact ⟨h1 ▸ clockShape_of_matchClockAt hca, h2 ▸ clockShape_of_matchClockAt hcb⟩
        · exact absurd h (by simp)
      · exact absurd h (by simp)
    · exact absurd h (by simp)

theorem clockShape_of_search {cs : List Char} {g1 g2 : String}
    (h : searchTimeRange cs = some (g1, g2)) : clockShape g1 ∧ clockShape g2 := by
  induction cs with
  | nil => simp [searchTimeRange] at h
  | cons c cs ih =>
    unfold searchTimeRange at h
    split at h
    · rename_i r hr
      simp only [Option.some.injEq] at h
      rw [h] at hr
      exact clockShape_of_matchTimeRangeAt hr
    · exact ih h

theorem clockShape_ne_empty {s : String} (h : clockShape s) : s ≠ "" := by
  obtain ⟨hd, md, heq, hne, _⟩ := h
  intro hs
  rw [hs] at heq
  exact hne (List.append_eq_nil.mp heq.symm).1

/-- Invariant of the scan: every buffered row and every committed map
entry carries clock strings of the regex shape. -/
def InvS (s : ExtState) : Prop :=
  (∀ r ∈ s.pendingRows, clockShape r.2.1 ∧ clockShape r.2.2) ∧
  (∀ d p, s.timeMap.get d = some p → clockShape p.1 ∧ clockShape p.2)

theorem choose_table_time_mem {cw : Option Nat} {rows : List TableRow}
    {v : String × String} (h : choose_table_time cw rows = some v) :
    ∃ r ∈ rows, v = (r.2.1, r.2.2) := by
  unfold choose_table_time at h
  cases cw with
  | none =>
    dsimp only at h
    cases hf : rows.find? (fun r => !r.2.1.isEmpty && !r.2.2.isEmpty) with
    | none => rw [hf] at h; simp at h
    | some r =>
      rw [hf] at h
      dsimp only [Option.map] at h
      exact ⟨r, List.mem_of_find?_eq_some hf, (Option.some.inj h).symm⟩
  | some w =>
    dsimp only at h
    cases hf1 : rows.find? (fun r =>
        decide (parse_week_spec r.1).Nonempty && decide (w ∈ parse_week_spec r.1)) with
    | some r =>
      rw [hf1] at h
      dsimp only [Option.map] at h
      exact ⟨r, List.mem_of_find?_eq_some hf1, (Option.some.inj h).symm⟩
    | none =>
      rw [hf1] at h
      dsimp only [Option.map] at h
      cases hf : rows.find? (fun r => !r.2.1.isEmpty && !r.2.2.isEmpty) with
      | none => rw [hf] at h; simp at h
      | some r =>
        rw [hf] at h
        dsimp only [Option.map] at h
        exact ⟨r, List.mem_of_find?_eq_some hf, (Option.some.inj h).symm⟩

theorem TMap.get_set (m : TMap) (d : Day) (v : String × String) (d' : Day) :
    (m.set d v).get d' = if d' = d then some v else m.get d' := by
  cases d <;> cases d' <;> simp [TMap.get, TMap.set]

theorem finalize_table_timeMap (cw : Option Nat) (s : ExtState) :
    (finalize_table cw s).timeMap = s.timeMap ∨
    ∃ d v, s.pendingDay = some d ∧ choose_table_time cw s.pendingRows = some v ∧
      (finalize_table cw s).timeMap = s.timeMap.set d v := by
  unfold finalize_table
  cases hd : s.pendingDay with
  | none => cases hr : s.pendingRows <;> exact Or.inl rfl
  | some d =>
    cases hr : s.pendingRows with
    | nil => exact Or.inl rfl
    | cons r rs =>
      dsimp only
      cases hc : choose_table_time cw (r :: rs) with
      | none => exact Or.inl rfl
      | some v => exact Or.inr ⟨d, v, rfl, rfl, rfl⟩

theorem InvS_finalize {cw : Option Nat} {s : ExtState} (h : InvS s) :
    InvS (finalize_table cw s) := by
  have hrows : (finalize_table cw s).pendingRows = [] := (finalize_table_fields cw s).2.2.2
  obtain hmap | ⟨d, v, hd, hc, hmap⟩ := finalize_table_timeMap cw s
  · refine ⟨?_, ?_⟩
    · intro r hr
      rw [hrows] at hr
      simp at hr
    · intro d' p hp
      rw [hmap] at hp
      exact h.2 d' p hp
  · refine ⟨?_, ?_⟩
    · intro r hr
      rw [hrows] at hr
      simp at hr
    · intro d' p hp
      rw [hmap, TMap.get_set] at hp
      split at hp
      · obtain ⟨r0, hr0, hv⟩ := choose_table_time_mem hc
        rw [Option.some.inj hp] at hv
        rw [hv]
        exact h.1 r0 hr0
      · exact h.2 d' p hp

theorem processTableRow_cases (s : ExtState) (line : List Char) :
    processTableRow s line = s ∨
    ∃ sp g1 g2 cs, searchTimeRange cs = some (g1, g2) ∧
      processTableRow s line = { s with pendingRows := s.pendingRows ++ [(sp, g1, g2)] } := by
  unfold processTableRow
  dsimp only
  cases hcells : (splitOnPred (fun c => c == '|') (stripBy (fun c => c == '|') line)).map trimWS with
  | nil => exact Or.inl rfl
  | cons c0 t0 =>
    cases t0 with
    | nil => exact Or.inl rfl
    | cons c1 t =>
      dsimp only
      split
      · cases hg : searchTimeRange c1 with
        | some g =>
          obtain ⟨g1, g2⟩ := g
          exact Or.inr ⟨String.mk c0, g1, g2, c1, hg, rfl⟩
        | none => exact Or.inl rfl
      · exact Or.inl rfl

theorem InvS_processTableRow {s : ExtState} {line : List Char} (h : InvS s) :
    InvS (processTableRow s line) := by
  obtain heq | ⟨sp, g1, g2, cs, hg, heq⟩ := processTableRow_cases s line
  · rw [heq]
    exact h
  · rw [heq]
    refine ⟨?_, h.2⟩
    intro r hr
    dsimp only at hr
    rcases List.mem_append.mp hr with hold | hnew
    · exact h.1 r hold
    · rw [List.mem_singleton.mp hnew]
      exact clockShape_of_search hg

theorem InvS_stepTail {s1 : ExtState} {line : List Char} (h : InvS s1) :
    InvS (stepTail s1 line) := by
  unfold stepTail
  split
  · exact h
  · split
    · exact h
    · split
      · exact h
      · rename_i d hd
        dsimp only
        cases hs : searchTimeRange line with
        | some g =>
          obtain ⟨g1, g2⟩ := g
          have hsh := clockShape_of_search hs
          dsimp only
          split <;>
          · refine ⟨?_, ?_⟩
            · intro r hr
              simp at hr
            · intro d' p hp
              dsimp only at hp
              rw [TMap.get_set] at hp
              split at hp
              · rw [← Option.some.inj hp]
                exact hsh
              · exact h.2 d' p hp
        | none =>
          dsimp only
          split <;>
          · refine ⟨?_, ?_⟩
            · intro r hr
              simp at hr
            · intro d' p hp
              dsimp only at hp
              exact h.2 d' p hp

theorem InvS_stepLine {cw : Option Nat} {s : ExtState} {line : List Char} (h : InvS s) :
    InvS (stepLine cw s line) := by
  unfold stepLine
  split
  · exact h
  · split
    · split <;> exact ⟨h.1, h.2⟩
    · dsimp only
      split
      · split
        · exact InvS_processTableRow (InvS_finalize h)
        · exact InvS_stepTail (InvS_finalize h)
      · split
        · exact InvS_processTableRow h
        · exact InvS_stepTail h

theorem InvS_initState : InvS initState := by
  constructor
  · intro r hr
    simp [initState] at hr
  · intro d p hp
    cases d <;> simp [initState, TMap.get] at hp

theorem InvS_foldl (cw : Option Nat) :
    ∀ (lines : List (List Char)) (s : ExtState), InvS s →
      InvS (List.foldl (stepLine cw) s lines) := by
  intro lines
  induction lines with
  | nil => intro s h; exact h
  | cons l ls ih =>
    intro s h
    rw [List.foldl_cons]
    exact ih _ (InvS_stepLine h)

theorem InvS_scanl (cw : Option Nat) :
    ∀ (lines : List (List Char)) (s : ExtState), InvS s →
      ∀ t ∈ List.scanl (stepLine cw) s lines, InvS t := by
  intro lines
  induction lines with
  | nil =>
    intro s h t ht
    rw [List.scanl_nil, List.mem_singleton] at ht
    rw [ht]
    exact h
  | cons l ls ih =>
    intro s h t ht
    rw [List.scanl_cons] at ht
    rcases List.mem_cons.mp ht with ht | ht
    · rw [ht]; exact h
    · exact ih _ (InvS_stepLine h) t ht

/-- C6, counterexample: the claim says every committed clock is a valid
`TimeOfDay` (hour in `[0, 23]`, minute in `[0, 59]`), but `TIME_RANGE_RE`
only checks digit counts, so `25:99-26:61` is committed verbatim with
hour 25 and minute 99. -/
theorem invalid_committed_time_counterexample :
    (extract_time_ranges "本周安排\n* 周五 25:99-26:61" none).get .fri =
      some ("25:99", "26:61") ∧ ¬ validClock "25:99" := by
  refine ⟨by decide, ?_⟩
  rintro ⟨hv, mv, heq, hh, hm⟩
  have hc : clockNums "25:99" = some (25, 99) := by decide
  rw [hc] at heq
  simp only [Option.some.injEq, Prod.mk.injEq] at heq
  omega

/-- C6, amended: every clock string committed into the returned
`ScheduleMap` has the syntactic shape enforced by `TIME_RANGE_RE` — one or
two digits, a colon, exactly two digits — so its hour and minute values
are at most 99, but they are not range-checked as a valid time of day. -/
theorem extract_committed_clock_shape :
    ∀ (text : String) (cw : Option Nat) (d : Day) (p : String × String),
      (extract_time_ranges text cw).get d = some p →
        clockShape p.1 ∧ clockShape p.2 := by
  intro text cw d p hp
  unfold extract_time_ranges at hp
  dsimp only at hp
  have h1 : InvS (((splitLines text.data).map normLine).foldl (stepLine cw) initState) :=
    InvS_foldl cw _ _ InvS_initState
  have h2 : InvS (if (((splitLines text.data).map normLine).foldl (stepLine cw)
        initState).pendingDay.isSome &&
      !(((splitLines text.data).map normLine).foldl (stepLine cw)
        initState).pendingRows.isEmpty then
      finalize_table cw (((splitLines text.data).map normLine).foldl (stepLine cw) initState)
    else ((splitLines text.data).map normLine).foldl (stepLine cw) initState) := by
    split
    · exact InvS_finalize h1
    · exact h1
  exact h2.2 d p hp

theorem extract_committed_clock_shape_witness :
    clockShape "19:00" ∧ clockShape "21:00" :=
  extract_committed_clock_shape "本周安排\n* 周五 19:00-21:00" none .fri
    ("19:00", "21:00") (by decide)

/-- C10: every buffered table row has non-empty start and end clock
strings, so whenever the pending rows of a reachable scanner state are
non-empty and the current-week rule does not apply (no week supplied, or
no row's week set contains it), `choose_table_time` returns the range of
the first buffered row. -/
theorem buffered_rows_first_fallback :
    ∀ (text : String) (cw : Option Nat) (s : ExtState), s ∈ statesOf text cw →
      (∀ r ∈ s.pendingRows, r.2.1 ≠ "" ∧ r.2.2 ≠ "") ∧
      (s.pendingRows ≠ [] → weekMiss cw s.pendingRows →
        choose_table_time cw s.pendingRows =
          s.pendingRows.head?.map (fun r => (r.2.1, r.2.2))) := by
  intro text cw s hs
  have hinv : InvS s := InvS_scanl cw _ _ InvS_initState s hs
  have hne : ∀ r ∈ s.pendingRows, r.2.1 ≠ "" ∧ r.2.2 ≠ "" := by
    intro r hr
    obtain ⟨sh1, sh2⟩ := hinv.1 r hr
    exact ⟨clockShape_ne_empty sh1, clockShape_ne_empty sh2⟩
  refine ⟨hne, ?_⟩
  intro hrows hmiss
  cases hr : s.pendingRows with
  | nil => exact absurd hr hrows
  | cons r rs =>
    have hrmem : r ∈ s.pendingRows := by rw [hr]; exact List.mem_cons_self r rs
    have hrne := hne r hrmem
    have hfb : List.find? (fun r : TableRow => !r.2.1.isEmpty && !r.2.2.isEmpty) (r :: rs) =
        some r := by
      apply List.find?_cons_of_pos
      have h1 : r.2.1.isEmpty = false := by
        cases he : r.2.1.isEmpty
        · rfl
        · exact absurd ((String.isEmpty_iff r.2.1).mp he) hrne.1
      have h2 : r.2.2.isEmpty = false := by
        cases he : r.2.2.isEmpty
        · rfl
        · exact absurd ((String.isEmpty_iff r.2.2).mp he) hrne.2
      rw [h1, h2]
      rfl
    unfold choose_table_time
    cases cw with
    | none =>
      dsimp only
      rw [hfb]
      rfl
    | some w =>
      dsimp only
      have hwf : List.find? (fun r : TableRow =>
          decide (parse_week_spec r.1).Nonempty && decide (w ∈ parse_week_spec r.1))
          (r :: rs) = none := by
        apply List.find?_eq_none.mpr
        intro x hx
        have hxmem : x ∈ s.pendingRows := by rw [hr]; exact hx
        have hnm := hmiss w rfl x hxmem
        simp [hnm]
      rw [hwf]
      dsimp only [Option.map]
      rw [hfb]
      rfl

theorem buffered_rows_first_fallback_witness :
    choose_table_time none [(("1-20" : String), ("09:00" : String), ("11:00" : String))] =
      some ("09:00", "11:00") := by
  have h := (buffered_rows_first_fallback "本周安排\n* 周六\n| 1-20 | 09:00-11:00 |" none
      { inWeekSection := true, pendingDay := some .sat,
        pendingRows := [("1-20", "09:00", "11:00")],
        timeMap := { fri := none, sat := none, sun := none }, done := false }
      (by decide)).2 (by decide) (fun w hw => by cases hw)
  exact h

/-- C9, counterexample: with a three-digit bound the token is not matched
as a range (the pattern allows only one or two digits per bound), so
`123-5` falls back to digit collection, `{123, 5}`, while `5-123` matches
as a range with the second bound truncated to `12`, `{5, ..., 12}` — the
two orders do not expand to the same inclusive set. -/
theorem week_range_symmetry_counterexample :
    parse_week_spec "123-5" ≠ parse_week_spec "5-123" ∧
    parse_week_spec "123-5" ≠ Finset.Icc 5 123 := by
  constructor
  · decide
  · decide

theorem dChar_digit : ∀ x, x < 10 → isDigitCh (dChar x) = true := by decide

theorem dChar_not_space : ∀ x, x < 10 → isPySpace (dChar x) = false := by decide

theorem dChar_not_comma : ∀ x, x < 10 → isCommaLike (dChar x) = false := by decide

theorem dChar_not_zhou : ∀ x, x < 10 → (!(dChar x == '周')) = true := by decide

theorem dChar_toNat : ∀ x, x < 10 → (dChar x).toNat = 48 + x := by decide

theorem natStr_ne_nil (n : Nat) : natStr n ≠ [] := by
  unfold natStr
  split <;> simp

theorem mem_natStr {n : Nat} {c : Char} (hn : n ≤ 99) (hc : c ∈ natStr n) :
    ∃ x, x < 10 ∧ c = dChar x := by
  unfold natStr at hc
  split at hc
  · rename_i h
    simp only [List.mem_singleton] at hc
    exact ⟨n, h, hc⟩
  · rename_i h
    simp only [List.mem_cons, List.mem_singleton, List.not_mem_nil, or_false] at hc
    rcases hc with hc | hc
    · exact ⟨n / 10, by omega, hc⟩
    · exact ⟨n % 10, by omega, hc⟩

theorem toNum_natStr {n : Nat} (hn : n ≤ 99) : toNum (natStr n) = n := by
  unfold natStr
  split
  · rename_i h
    simp only [toNum, List.foldl]
    rw [dChar_toNat n h]
    omega
  · rename_i h
    simp only [toNum, List.foldl]
    rw [dChar_toNat (n / 10) (by omega), dChar_toNat (n % 10) (by omega)]
    omega

theorem dropWhile_head_false {p : Char → Bool} {c : Char} {cs : List Char}
    (h : p c = false) : (c :: cs).dropWhile p = c :: cs := by
  simp [List.dropWhile, h]

theorem dropWhile_all_false {p : Char → Bool} {l : List Char}
    (h : ∀ c ∈ l, p c = false) : l.dropWhile p = l := by
  cases l with
  | nil => rfl
  | cons c cs => exact dropWhile_head_false (h c (List.mem_cons_self c cs))

theorem natStr_all_not_space {b : Nat} (hb : b ≤ 99) :
    ∀ c ∈ natStr b, isPySpace c = false := by
  intro c hc
  obtain ⟨x, hx, rfl⟩ := mem_natStr hb hc
  exact dChar_not_space x hx

theorem matchNum2_natStr {b : Nat} (hb : b ≤ 99) :
    matchNum2 (natStr b) = some (natStr b, []) := by
  unfold natStr
  split
  · rename_i h
    unfold matchNum2
    dsimp only
    rw [dChar_digit b h]
    rfl
  · rename_i h
    unfold matchNum2
    dsimp only
    rw [dChar_digit (b / 10) (by omega)]
    simp only [if_true]
    rw [dChar_digit (b % 10) (by omega)]
    rfl

theorem matchSepNum_dash_natStr {b : Nat} (hb : b ≤ 99) :
    matchSepNum ('-' :: natStr b) = some (natStr b) := by
  unfold matchSepNum
  rw [dropWhile_head_false (show isPySpace '-' = false by decide)]
  dsimp only
  rw [show isDashLike '-' = true by decide]
  simp only [if_true]
  rw [dropWhile_all_false (natStr_all_not_space hb), matchNum2_natStr hb]

theorem toNum_single (c : Char) : toNum [c] = c.toNat - 48 := by
  simp [toNum]

theorem matchWeekRange_natStr {a b : Nat} (ha : a ≤ 99) (hb : b ≤ 99) :
    matchWeekRange (natStr a ++ '-' :: natStr b) = some (a, b) := by
  by_cases h : a < 10
  · have hna : natStr a = [dChar a] := by unfold natStr; rw [if_pos h]
    rw [hna, List.cons_append, List.nil_append]
    unfold matchWeekRange
    dsimp only
    rw [dChar_digit a h]
    simp only [if_true]
    rw [show isDigitCh '-' = false by decide]
    simp only [Bool.false_eq_true, if_false]
    rw [matchSepNum_dash_natStr hb]
    dsimp only
    rw [toNum_natStr hb, toNum_single, dChar_toNat a h]
    have h48 : 48 + a - 48 = a := by omega
    rw [h48]
  · have hna : natStr a = [dChar (a / 10), dChar (a % 10)] := by
      unfold natStr; rw [if_neg h]
    rw [hna, List.cons_append, List.cons_append, List.nil_append]
    unfold matchWeekRange
    dsimp only
    rw [dChar_digit (a / 10) (by omega)]
    simp only [if_true]
    rw [dChar_digit (a % 10) (by omega)]
    simp only [if_true]
    rw [matchSepNum_dash_natStr hb]
    dsimp only
    rw [toNum_natStr hb, ← hna, toNum_natStr ha]

theorem splitOnPred_all_false {p : Char → Bool} {l : List Char}
    (h : ∀ c ∈ l, p c = false) : splitOnPred p l = [l] := by
  induction l with
  | nil => rfl
  | cons c cs ih =>
    unfold splitOnPred
    rw [h c (List.mem_cons_self c cs)]
    simp only [Bool.false_eq_true, if_false]
    rw [ih (fun x hx => h x (List.mem_cons_of_mem c hx))]

theorem trimWS_all_false {l : List Char} (h : ∀ c ∈ l, isPySpace c = false) :
    trimWS l = l := by
  unfold trimWS stripBy
  rw [dropWhile_all_false h,
    dropWhile_all_false (fun c hc => h c (List.mem_reverse.mp hc)),
    List.reverse_reverse]

theorem rangeTok_mem {a b : Nat} {c : Char} (ha : a ≤ 99) (hb : b ≤ 99)
    (hc : c ∈ natStr a ++ '-' :: natStr b) : c = '-' ∨ ∃ x, x < 10 ∧ c = dChar x := by
  rcases List.mem_append.mp hc with h1 | h1
  · exact Or.inr (mem_natStr ha h1)
  · rcases List.mem_cons.mp h1 with h2 | h2
    · exact Or.inl h2
    · exact Or.inr (mem_natStr hb h2)

theorem parse_week_spec_natStr_range {a b : Nat} (ha : a ≤ 99) (hb : b ≤ 99) :
    parse_week_spec (String.mk (natStr a ++ '-' :: natStr b)) =
      Finset.Icc (min a b) (max a b) := by
  have hcomma : ∀ c ∈ natStr a ++ '-' :: natStr b, isCommaLike c = false := by
    intro c hc
    rcases rangeTok_mem ha hb hc with rfl | ⟨x, hx, rfl⟩
    · decide
    · exact dChar_not_comma x hx
  have hspace : ∀ c ∈ natStr a ++ '-' :: natStr b, isPySpace c = false := by
    intro c hc
    rcases rangeTok_mem ha hb hc with rfl | ⟨x, hx, rfl⟩
    · decide
    · exact dChar_not_space x hx
  have hzhou : ∀ c ∈ natStr a ++ '-' :: natStr b, (!(c == '周')) = true := by
    intro c hc
    rcases rangeTok_mem ha hb hc with rfl | ⟨x, hx, rfl⟩
    · decide
    · exact dChar_not_zhou x hx
  unfold parse_week_spec
  rw [show (String.mk (natStr a ++ '-' :: natStr b)).data = natStr a ++ '-' :: natStr b
      from rfl]
  rw [splitOnPred_all_false hcomma, List.foldl_cons, List.foldl_nil, Finset.empty_union]
  unfold parseToken
  rw [trimWS_all_false hspace]
  dsimp only
  have hne : (natStr a ++ '-' :: natStr b).isEmpty = false := by
    cases hna : natStr a with
    | nil => exact absurd hna (natStr_ne_nil a)
    | cons c cs => rfl
  rw [hne]
  simp only [Bool.false_eq_true, if_false]
  rw [List.filter_eq_self.mpr hzhou, matchWeekRange_natStr ha hb]
  dsimp only
  by_cases hab : a ≤ b
  · rw [if_pos hab, Nat.Ico_succ_right, min_eq_left hab, max_eq_right hab]
  · have hba : b ≤ a := by omega
    rw [if_neg hab, Nat.Ico_succ_right, min_eq_right hba, max_eq_left hba]

/-- C9, amended: for all one- or two-digit integers `a` and `b` (the
week-range pattern captures only `\d{1,2}` bounds), the tokens `a-b` and
`b-a` both expand to the full inclusive integer set between the two
bounds; for larger integers the symmetry fails, as the counterexample
shows. -/
theorem week_range_expansion_symmetric :
    ∀ a b : Nat, a ≤ 99 → b ≤ 99 →
      parse_week_spec (String.mk (natStr a ++ '-' :: natStr b)) =
        Finset.Icc (min a b) (max a b) ∧
      parse_week_spec (String.mk (natStr a ++ '-' :: natStr b)) =
        parse_week_spec (String.mk (natStr b ++ '-' :: natStr a)) := by
  intro a b ha hb
  refine ⟨parse_week_spec_natStr_range ha hb, ?_⟩
  rw [parse_week_spec_natStr_range ha hb, parse_week_spec_natStr_range hb ha,
    Nat.min_comm, Nat.max_comm]

theorem week_range_expansion_symmetric_witness :
    parse_week_spec (String.mk (natStr 3 ++ '-' :: natStr 5)) =
      Finset.Icc (min 3 5) (max 3 5) ∧
    parse_week_spec (String.mk (natStr 3 ++ '-' :: natStr 5)) =
      parse_week_spec (String.mk (natStr 5 ++ '-' :: natStr 3)) :=
  week_range_expansion_symmetric 3 5 (by decide) (by decide)
